import Mathlib

/-!
Verification of the ClearSwarm multi-agent orchestration runtime.

This file is a shallow embedding of `src/multi_agent/core/orchestrator.py`,
`src/multi_agent/core/agent.py`, `src/multi_agent/core/database.py`,
`src/multi_agent/core/prompts.py` and
`src/multi_agent/web_interface/api/agents.py`, together with theorems
settling the specification claims about them.

Conventions of the embedding:
* Python dictionaries of JSON parameters are modelled as association lists
  `List (String × String)`; `dict.get` takes the last binding, matching
  `json.loads` duplicate-key behaviour.
* Wall-clock timestamps are modelled as natural numbers (minutes for the
  schedule component) or abstract strings where only equality matters.
* Concurrency is modelled by an explicit small-step relation on the
  `TaskManager` counter state; every interleaving of the Python coroutines
  corresponds to a trace of that relation.
-/

/-- Conversation message roles, as used by `ConversationManager`. -/
inductive Role
  | system
  | user
  | assistant
deriving DecidableEq, Repr

/-- An in-memory conversation message (`ConversationManager` appends these to
`agent.messages`; the wall-clock `timestamp` field is omitted). -/
structure Message where
  role : Role
  content : String
deriving DecidableEq, Repr

/-- A parsed tool-call block, as produced by
`ToolCallHandler.extract_all_tool_calls`: `tool_name`, `call_mode`
(defaulted to `"synchronous"`), the decoded JSON `parameters`, and the
`parse_error` sentinel when the parameters JSON was malformed. -/
structure ToolCall where
  tool_name : String
  call_mode : String
  parameters : List (String × String)
  parse_error : Option String
deriving DecidableEq, Repr

/-- The built-in session-terminating tool name (`END_SESSION_TOOL`). -/
def END_SESSION_TOOL : String := "end_session"

/-- A single-quote character, used when rendering the prompt templates
(the source templates quote tool names with ASCII apostrophes). -/
def squote : String := String.singleton (Char.ofNat 39)

/-- Render a name wrapped in single quotes, as the f-strings in the source do. -/
def quoted (s : String) : String := squote ++ s ++ squote

/-- `dict.get k` over an association list with `json.loads` semantics:
later duplicate keys override earlier ones; `dflt` when absent. -/
def paramGet (ps : List (String × String)) (k : String) (dflt : String) : String :=
  match ps.reverse.find? (fun p => p.1 = k) with
  | some p => p.2
  | none => dflt

section TaskManagerModel

/-- The counter-relevant state of a `TaskManager` instance:
`launched` and `processed` are the two counters, `queued` is the number of
`(task_id, result)` pairs sitting in `completed_results`, and `running` is
the number of task wrappers that have been created but have not yet pushed
their result to the queue. -/
structure TMState where
  launched : Nat
  processed : Nat
  queued : Nat
  running : Nat
deriving DecidableEq, Repr

/-- The state of a freshly constructed `TaskManager`. -/
def TMState.init : TMState := ⟨0, 0, 0, 0⟩

/-- `outstanding() = launched - processed`, the authoritative count checked by
`has_outstanding_tasks` / `get_outstanding_count`. -/
def TMState.outstanding (s : TMState) : Nat := s.launched - s.processed

/-- One atomic `TaskManager` operation, as serialized by `tasks_lock`:
* `launch_task` admits a new wrapper and increments `launched`;
* `task_complete` is a wrapper finishing (push to `completed_results`);
* `process_result` is the orchestrator dequeuing one result and then calling
  `mark_task_processed`.
Every interleaving of the Python coroutines is a sequence of these steps. -/
inductive TMStep : TMState → TMState → Prop
  | launch_task (s : TMState) :
      TMStep s { s with launched := s.launched + 1, running := s.running + 1 }
  | task_complete (s : TMState) (h : 0 < s.running) :
      TMStep s { s with running := s.running - 1, queued := s.queued + 1 }
  | process_result (s : TMState) (h : 0 < s.queued) :
      TMStep s { s with queued := s.queued - 1, processed := s.processed + 1 }

/-- States reachable from a fresh `TaskManager` by any interleaving. -/
def TMReachable : TMState → Prop :=
  Relation.ReflTransGen TMStep TMState.init

/-- The queue-draining loop at the end of `wait_for_remaining_tasks`:
`while not empty: get_nowait(); mark_task_processed()`. -/
def drainQueue (s : TMState) : TMState :=
  if 0 < s.queued then
    drainQueue { s with queued := s.queued - 1, processed := s.processed + 1 }
  else s
termination_by s.queued

/-- The `asyncio.gather` over the remaining pending tasks in
`wait_for_remaining_tasks`: awaiting every wrapper still running lets each
push its result to the queue. -/
def gatherRemaining (s : TMState) : TMState :=
  if 0 < s.running then
    gatherRemaining { s with running := s.running - 1, queued := s.queued + 1 }
  else s
termination_by s.running

/-- `AgentOrchestrator.wait_for_remaining_tasks`: await all remaining task
wrappers, then drain every result left in `completed_results`, incrementing
`processed` for each. -/
def wait_for_remaining_tasks (s : TMState) : TMState :=
  drainQueue (gatherRemaining s)

/-- The counter invariant of the `TaskManager`: every launched task is either
still running, queued, or processed. -/
def TMInv (s : TMState) : Prop :=
  s.launched = s.processed + s.queued + s.running

theorem tmInv_init : TMInv TMState.init := rfl

theorem tmInv_step {s t : TMState} (hs : TMInv s) (h : TMStep s t) : TMInv t := by
  cases h with
  | launch_task => simp only [TMInv] at hs ⊢; omega
  | task_complete h => simp only [TMInv] at hs ⊢; omega
  | process_result h => simp only [TMInv] at hs ⊢; omega

theorem tmInv_reachable {s : TMState} (h : TMReachable s) : TMInv s := by
  induction h with
  | refl => exact tmInv_init
  | tail _ hstep ih => exact tmInv_step ih hstep

theorem drainQueue_eq (s : TMState) :
    drainQueue s = { s with queued := 0, processed := s.processed + s.queued } := by
  induction s using drainQueue.induct with
  | case1 s h ih =>
    rw [drainQueue, if_pos h, ih]
    simp
    omega
  | case2 s h =>
    rw [drainQueue, if_neg h]
    obtain ⟨a, b, c, d⟩ := s
    simp_all

theorem gatherRemaining_eq (s : TMState) :
    gatherRemaining s = { s with running := 0, queued := s.queued + s.running } := by
  induction s using gatherRemaining.induct with
  | case1 s h ih =>
    rw [gatherRemaining, if_pos h, ih]
    simp
    omega
  | case2 s h =>
    rw [gatherRemaining, if_neg h]
    obtain ⟨a, b, c, d⟩ := s
    simp_all

end TaskManagerModel

/-- C2: across every interleaving of `TaskManager` operations the counters
satisfy `launched ≥ processed`, and after `wait_for_remaining_tasks` returns
the two counters are equal. -/
theorem taskManager_counters_invariant (s : TMState) (h : TMReachable s) :
    s.processed ≤ s.launched ∧
      (wait_for_remaining_tasks s).launched = (wait_for_remaining_tasks s).processed := by
  have hinv := tmInv_reachable h
  constructor
  · simp only [TMInv] at hinv; omega
  · simp only [wait_for_remaining_tasks, gatherRemaining_eq, drainQueue_eq]
    simp only [TMInv] at hinv
    omega

/-- Witness for C2: the invariant instantiated on a concrete reachable state
(one task launched, completed, and its result queued but unprocessed). -/
theorem taskManager_counters_invariant_witness :
    (TMState.mk 1 0 1 0).processed ≤ (TMState.mk 1 0 1 0).launched ∧
      (wait_for_remaining_tasks ⟨1, 0, 1, 0⟩).launched =
        (wait_for_remaining_tasks ⟨1, 0, 1, 0⟩).processed :=
  taskManager_counters_invariant ⟨1, 0, 1, 0⟩
    (Relation.ReflTransGen.tail
      (Relation.ReflTransGen.tail Relation.ReflTransGen.refl
        (TMStep.launch_task TMState.init))
      (TMStep.task_complete ⟨1, 0, 0, 1⟩ (by decide)))

section StringScanning

/-!
String-scanning utilities modelling the `re` patterns of the source at the
character-list level. The non-greedy group `(.*?)pat` of the source regexes
is modelled by `splitFirst pat`, which returns the shortest prefix before the
leftmost occurrence of the literal `pat`; `\s*` is modelled by `dropWS`
(ASCII whitespace, which is what the source's tool-call markup uses).
-/

/-- Python `\s` on ASCII input: space, tab, newline, carriage return,
form feed, vertical tab. -/
def isWS (c : Char) : Bool :=
  c = ' ' || c = '\t' || c = '\n' || c = '\r' || c = '\x0b' || c = '\x0c'

/-- Skip leading whitespace (the `\s*` of the source regexes). -/
def dropWS : List Char → List Char
  | [] => []
  | c :: rest => if isWS c then dropWS rest else c :: rest

/-- If `pat` is a literal prefix of `s`, return the remainder. -/
def stripPre : List Char → List Char → Option (List Char)
  | [], s => some s
  | _ :: _, [] => none
  | p :: ps, c :: cs => if p = c then stripPre ps cs else none

/-- Lazy match of `(.*?)pat`: split `s` at the leftmost occurrence of the
literal `pat`, returning the (shortest) prefix before it and the suffix
after it. -/
def splitFirst (pat : List Char) : List Char → Option (List Char × List Char)
  | [] => match stripPre pat [] with
    | some rest => some ([], rest)
    | none => none
  | c :: cs =>
    match stripPre pat (c :: cs) with
    | some rest => some ([], rest)
    | none => (splitFirst pat cs).map (fun p => (c :: p.1, p.2))

/-- Python `str.strip()`: remove leading and trailing whitespace. -/
def stripChars (s : List Char) : List Char :=
  (dropWS (dropWS s).reverse).reverse

end StringScanning

section JsonModel

/-!
Model of `json.loads` / `json.dumps` restricted to flat objects with string
keys and string values (the shape of every tool-call parameters object the
concrete theorems below evaluate). Inputs outside this fragment are treated
as parse failures; the claims never quantify over the JSON grammar itself,
they only evaluate these functions on concrete well-formed or malformed
inputs.
-/

/-- Parse a JSON string literal (no escape sequences), starting at the
opening quote; returns the content and the remainder after the closing
quote. -/
def jsonStringAux : List Char → Option (List Char × List Char)
  | [] => none
  | c :: cs =>
    if c = '"' then some ([], cs)
    else (jsonStringAux cs).map (fun p => (c :: p.1, p.2))

/-- Parse a JSON string literal including its opening quote. -/
def jsonString (s : List Char) : Option (String × List Char) :=
  match s with
  | '"' :: rest => (jsonStringAux rest).map (fun p => (String.mk p.1, p.2))
  | _ => none

/-- Parse the `"key": "value"` pairs of a flat JSON object, after the
opening brace; fueled by the input length. -/
def jsonPairsAux : Nat → List Char → List (String × String) →
    Option (List (String × String))
  | 0, _, _ => none
  | fuel + 1, s, acc =>
    match jsonString (dropWS s) with
    | none => none
    | some (k, s1) =>
      match dropWS s1 with
      | ':' :: s2 =>
        match jsonString (dropWS s2) with
        | none => none
        | some (v, s3) =>
          match dropWS s3 with
          | ',' :: s4 => jsonPairsAux fuel s4 (acc ++ [(k, v)])
          | '}' :: s5 => if dropWS s5 = [] then some (acc ++ [(k, v)]) else none
          | _ => none
      | _ => none

/-- `json.loads` restricted to flat string-to-string objects: surrounding
whitespace tolerated, `{}` accepted, everything else a parse failure. -/
def parseJsonObject (s : List Char) : Option (List (String × String)) :=
  match dropWS s with
  | '{' :: rest =>
    match dropWS rest with
    | '}' :: tail => if dropWS tail = [] then some [] else none
    | s1 => jsonPairsAux (s1.length + 1) s1 []
  | _ => none

/-- `json.dumps` of a flat string-to-string object. -/
def dumpJsonPair (p : String × String) : String :=
  "\"" ++ p.1 ++ "\": \"" ++ p.2 ++ "\""

/-- `json.dumps` of a parameters dictionary. -/
def dumpJsonObject (ps : List (String × String)) : String :=
  "\x7b" ++ String.intercalate ", " (ps.map dumpJsonPair) ++ "\x7d"

end JsonModel

section ToolCallHandlerModel

/-!
`ToolCallHandler` (orchestrator.py lines 22-101). The regexes are modelled
by the lazy scanners above: each `(.*?)` capture takes the shortest text
before the leftmost occurrence of the closing literal, matching the
non-greedy semantics of the source patterns on their intended markup. After
a failed attempt at one `<tool_call>` occurrence the scan resumes behind
that literal, which agrees with `re.finditer` because the literal cannot
overlap itself.
-/

/-- Attempt to match the body of the `extract_all_tool_calls` pattern right
after a `<tool_call>` literal: `\s*<tool_name>(.*?)</tool_name>`
`(?:\s*<call_mode>(.*?)</call_mode>)?\s*<parameters>(.*?)</parameters>`
`\s*</tool_call>`. Returns the parsed block and the remainder. -/
def matchToolCallBody (s : List Char) : Option (ToolCall × List Char) :=
  match stripPre "<tool_name>".toList (dropWS s) with
  | none => none
  | some s1 =>
    match splitFirst "</tool_name>".toList s1 with
    | none => none
    | some (nameRaw, s2) =>
      let modeAndRest : Option (String × List Char) :=
        match stripPre "<call_mode>".toList (dropWS s2) with
        | some s3 =>
          match splitFirst "</call_mode>".toList s3 with
          | none => none
          | some (modeRaw, s4) => some (String.mk (stripChars modeRaw), s4)
        | none => some ("synchronous", s2)
      match modeAndRest with
      | none => none
      | some (mode, s5) =>
        match stripPre "<parameters>".toList (dropWS s5) with
        | none => none
        | some s6 =>
          match splitFirst "</parameters>".toList s6 with
          | none => none
          | some (paramsRaw, s7) =>
            match stripPre "</tool_call>".toList (dropWS s7) with
            | none => none
            | some s8 =>
              let name := String.mk (stripChars nameRaw)
              match parseJsonObject (stripChars paramsRaw) with
              | some ps => some (⟨name, mode, ps, none⟩, s8)
              | none =>
                -- `json.loads` failed: the block is kept with a parse-error
                -- sentinel (the Python diagnostic carries the decoder detail)
                some (⟨name, mode, [], some "Invalid JSON in parameters"⟩, s8)

/-- Scan loop of `extract_all_tool_calls` over the whole text, fueled by the
input length (each round consumes at least the `<tool_call>` literal). -/
def extractAllAux : Nat → List Char → List ToolCall
  | 0, _ => []
  | fuel + 1, s =>
    match splitFirst "<tool_call>".toList s with
    | none => []
    | some (_, rest) =>
      match matchToolCallBody rest with
      | some (tc, after) => tc :: extractAllAux fuel after
      | none => extractAllAux fuel rest

/-- `ToolCallHandler.extract_all_tool_calls`: extract every `<tool_call>`
block of an assistant response. -/
def extract_all_tool_calls (text : String) : List ToolCall :=
  extractAllAux (text.length + 1) text.toList

/-- A legacy-format tool call as parsed by `Agent._extract_tool_call`
(no `call_mode`). -/
structure LegacyToolCall where
  tool_name : String
  parameters : List (String × String)
deriving DecidableEq, Repr

/-- `Agent._extract_tool_call`: the legacy single-block pattern
`(?:<tool_call>\s*)?<tool_name>(.*?)</tool_name>\s*<parameters>(.*?)`
`</parameters>(?:\s*</tool_call>)?` — the `<tool_call>` wrapper is optional,
so the match is located at the first `<tool_name>` literal; a JSON decode
failure of the first match returns `None`. -/
def legacy_extract_tool_call (text : String) : Option LegacyToolCall :=
  match splitFirst "<tool_name>".toList text.toList with
  | none => none
  | some (_, s1) =>
    match splitFirst "</tool_name>".toList s1 with
    | none => none
    | some (nameRaw, s2) =>
      match stripPre "<parameters>".toList (dropWS s2) with
      | none => none
      | some s3 =>
        match splitFirst "</parameters>".toList s3 with
        | none => none
        | some (paramsRaw, _) =>
          match parseJsonObject (stripChars paramsRaw) with
          | some ps => some ⟨String.mk (stripChars nameRaw), ps⟩
          | none => none

/-- `ToolCallHandler.categorize_tool_calls`: partition parsed blocks into
the (at most one, last-wins) `end_session` call, the synchronous calls and
the asynchronous calls, preserving order within each list. -/
def categorizeAux : List ToolCall → Option ToolCall → List ToolCall → List ToolCall →
    Option ToolCall × List ToolCall × List ToolCall
  | [], es, syncs, asyncs => (es, syncs, asyncs)
  | tc :: rest, es, syncs, asyncs =>
    if tc.tool_name = END_SESSION_TOOL then
      categorizeAux rest (some tc) syncs asyncs
    else if tc.call_mode = "synchronous" then
      categorizeAux rest es (syncs ++ [tc]) asyncs
    else
      categorizeAux rest es syncs (asyncs ++ [tc])

/-- `ToolCallHandler.categorize_tool_calls` entry point. -/
def categorize_tool_calls (tool_calls : List ToolCall) :
    Option ToolCall × List ToolCall × List ToolCall :=
  categorizeAux tool_calls none [] []

/-- One removal round of the `re.sub` in `extract_text_before_end_session`:
delete every match of `<tool_call>\s*<tool_name>end_session</tool_name>`
`.*?</tool_call>`, fueled by the input length. -/
def removeEndSessionAux : Nat → List Char → List Char
  | 0, s => s
  | fuel + 1, s =>
    match splitFirst "<tool_call>".toList s with
    | none => s
    | some (before, rest) =>
      match stripPre "<tool_name>end_session</tool_name>".toList (dropWS rest) with
      | some r2 =>
        match splitFirst "</tool_call>".toList r2 with
        | some (_, after) => before ++ removeEndSessionAux fuel after
        | none => before ++ "<tool_call>".toList ++ removeEndSessionAux fuel rest
      | none => before ++ "<tool_call>".toList ++ removeEndSessionAux fuel rest

/-- `ToolCallHandler.extract_text_before_end_session`: remove every
`end_session` tool-call block from the response and strip the result. -/
def extract_text_before_end_session (response : String) : String :=
  String.mk (stripChars (removeEndSessionAux (response.length + 1) response.toList))

end ToolCallHandlerModel

section PromptMessages

/-!
The `FALLBACK_PROMPTS` templates of `PromptLoader` (prompts.py), rendered by
`get_runtime_message` / `get_error_message` with `str.format` substitution.
The repository ships no `user/prompts/default.yaml`, so the fallback table
is the one in effect.
-/

/-- Runtime template `tool_result`. -/
def tool_result_message (tool_name result : String) : String :=
  "Tool " ++ quoted tool_name ++ " result:\n" ++ result

/-- Runtime template `task_completed`. -/
def task_completed_message (task_id result : String) : String :=
  "Task " ++ quoted task_id ++ " completed:\n" ++ result

/-- `PromptLoader.format_task_list`. -/
def format_task_list (task_ids : List String) : String :=
  String.intercalate "\n" (task_ids.map (fun tid => "  - " ++ tid))

/-- Runtime template `tasks_launched_notification`. -/
def tasks_launched_notification_message (task_ids : List String) : String :=
  "SYSTEM NOTIFICATION: " ++ toString task_ids.length ++ " task(s) launched:\n"
    ++ format_task_list task_ids ++ "\n\nDO NOT create duplicate tasks.\n"

/-- Runtime template `end_session_with_pending_tasks_error`. -/
def end_session_warning_message (pending_count : Nat) (task_list : String) : String :=
  "❌ CRITICAL ERROR: You called end_session with " ++ toString pending_count
    ++ " pending tasks!\n\nPending: " ++ task_list ++ "\n\nend_session call IGNORED.\n"

/-- The parse-error notification appended by `_process_tool_calls`
(an f-string in orchestrator.py, not a template). -/
def parse_error_message (tool_name diagnostic : String) : String :=
  "Error parsing tool call for " ++ quoted tool_name ++ ": " ++ diagnostic

/-- Error template `tool_not_authorized`. -/
def tool_not_authorized_message (tool_name agent_name authorized_tools tools_file : String) :
    String :=
  "SECURITY ERROR: Tool/agent " ++ quoted tool_name ++ " is not authorized for agent "
    ++ quoted agent_name ++ ". Authorized tools: " ++ authorized_tools
    ++ ". To use this tool, add it to the file: " ++ tools_file

/-- Error template `tool_not_found`. -/
def tool_not_found_message (tool_name : String) : String :=
  "Tool or agent " ++ quoted tool_name ++ " not found"

/-- Error template `tool_execution_error`. -/
def tool_execution_error_message (tool_name error_details : String) : String :=
  "Error executing tool/agent " ++ quoted tool_name ++ ": " ++ error_details

end PromptMessages

section ExecuteToolModel

/-!
`Agent._execute_tool` (agent.py lines 379-470). Tool and sub-agent
registries, tool execution results and sub-agent runs are abstracted into an
environment; a tool `execute` that raises is an `Except.error`, which the
source converts into a textual result. The function itself never raises:
its Lean type is a total `String`.
-/

/-- The whitelist-relevant part of an `AgentConfig`. -/
structure AgentCfg where
  name : String
  tools : List String
  agent_dir : String
deriving Repr

/-- The built-in tools that are always authorized (`built_in_tools`). -/
def built_in_tools : List String := [END_SESSION_TOOL]

/-- External collaborators of `_execute_tool`: the tool registry, the agent
registry, tool execution (which may raise), and recursive sub-agent
execution (already `_clean_result`-ed, as in the source). -/
structure ToolEnv where
  isTool : String → Bool
  isAgent : String → Bool
  toolExec : String → List (String × String) → Except String String
  runAgent : String → String → String

/-- The `', '.join(self.config.tools) if self.config.tools else 'none'`
rendering of the whitelist. -/
def authorizedToolsStr (tools : List String) : String :=
  if tools = [] then "none" else String.intercalate ", " tools

/-- The message passed to a sub-agent: `query` or `message` parameter, or
the JSON dump of all parameters when neither is present. -/
def subAgentMessage (parameters : List (String × String)) : String :=
  let q := paramGet parameters "query" ""
  let m := if q ≠ "" then q else paramGet parameters "message" ""
  if m = "" then dumpJsonObject parameters else m

/-- `Agent._execute_tool`: authorization check, then dispatch to a tool, a
sub-agent, or the not-found message; execution failures become textual
results. Database bookkeeping (tool-execution rows, `executing_tool` state)
does not affect the returned text and is modelled elsewhere. -/
def execute_tool (env : ToolEnv) (cfg : AgentCfg) (tool_name : String)
    (parameters : List (String × String)) : String :=
  if tool_name ∉ built_in_tools ∧ tool_name ∉ cfg.tools then
    tool_not_authorized_message tool_name cfg.name (authorizedToolsStr cfg.tools)
      (cfg.agent_dir ++ "/tools.txt")
  else if env.isTool tool_name then
    match env.toolExec tool_name parameters with
    | .ok r => r
    | .error e => tool_execution_error_message tool_name e
  else if env.isAgent tool_name then
    env.runAgent tool_name (subAgentMessage parameters)
  else
    tool_not_found_message tool_name

end ExecuteToolModel

section OrchestratorModel

/-!
`AgentOrchestrator` (orchestrator.py lines 386-658). The per-run state
carries the conversation, the `TaskManager` counter state, the pending task
ids and the persisted `current_state`; in addition an event `trace` records,
in program order, every conversation append, every synchronous dispatch and
every asynchronous launch of the turn, which is what the ordering claims
quantify over. The LLM call itself is outside the model: `handle_iteration`
receives the returned response content. The transient pending-tasks system
message is appended before the LLM call and removed right after it in a
`finally` block, so it never survives into the conversation and is omitted.
-/

/-- An observable event of one orchestrator turn. -/
inductive TurnEvent
  | append (m : Message)
  | dispatch (tool_name : String) (parameters : List (String × String))
  | launch (task_id : String) (tool_name : String) (parameters : List (String × String))
deriving DecidableEq, Repr

/-- The orchestrator-visible state of one `AgentRun`. -/
structure OrchState where
  conversation : List Message
  trace : List TurnEvent
  tm : TMState
  pendingIds : List String
  taskCounter : Nat
  runState : String
deriving Repr

/-- Append a message to the conversation (a `ConversationManager.add_*`
call), recording the event. -/
def appendMsg (st : OrchState) (m : Message) : OrchState :=
  { st with conversation := st.conversation ++ [m],
            trace := st.trace ++ [TurnEvent.append m] }

/-- Record the dispatch of a synchronous tool call (`_execute_tool`). -/
def dispatchTool (st : OrchState) (tool_name : String)
    (parameters : List (String × String)) : OrchState :=
  { st with trace := st.trace ++ [TurnEvent.dispatch tool_name parameters] }

/-- The parse-error pass of `_process_tool_calls`: for each block carrying a
`parse_error`, append a user message naming the tool and the diagnostic. -/
def appendParseErrors : OrchState → List ToolCall → OrchState
  | st, [] => st
  | st, tc :: rest =>
    match tc.parse_error with
    | some e =>
      appendParseErrors (appendMsg st ⟨Role.user, parse_error_message tc.tool_name e⟩) rest
    | none => appendParseErrors st rest

/-- `AgentOrchestrator._execute_sync_calls`: execute each synchronous call
in order, appending its result as a user message before the next call is
dispatched. `execT` is the (abstracted) `Agent._execute_tool`. -/
def execute_sync_calls (execT : String → List (String × String) → String) :
    OrchState → List ToolCall → OrchState
  | st, [] => st
  | st, tc :: rest =>
    let st1 := dispatchTool st tc.tool_name tc.parameters
    let result := execT tc.tool_name tc.parameters
    let st2 := appendMsg st1 ⟨Role.user, tool_result_message tc.tool_name result⟩
    execute_sync_calls execT st2 rest

/-- `TaskManager.generate_task_id`: `"<toolName>_<counter>"`. -/
def generate_task_id (tool_name : String) (n : Nat) : String :=
  tool_name ++ "_" ++ toString n

/-- `AgentOrchestrator._launch_async_calls`: allocate a task id and launch
each asynchronous call via `TaskManager.launch_task` (which increments
`launched` and registers the pending task), returning the launched ids in
textual order. -/
def launch_async_calls : OrchState → List ToolCall → OrchState × List String
  | st, [] => (st, [])
  | st, tc :: rest =>
    let tid := generate_task_id tc.tool_name st.taskCounter
    let st1 : OrchState :=
      { st with
          trace := st.trace ++ [TurnEvent.launch tid tc.tool_name tc.parameters],
          tm := { st.tm with launched := st.tm.launched + 1,
                             running := st.tm.running + 1 },
          pendingIds := st.pendingIds ++ [tid],
          taskCounter := st.taskCounter + 1 }
    let res := launch_async_calls st1 rest
    (res.1, tid :: res.2)

/-- `AgentOrchestrator._should_continue_generating`. -/
def should_continue_generating (sync_calls async_calls : List ToolCall) : Bool :=
  if sync_calls ≠ [] ∧ async_calls = [] then true
  else false

/-- `AgentOrchestrator._handle_end_session`: reject with a system warning
when the outstanding count (`launched - processed`) is positive, naming the
still-pending task ids (or the count of undrained results) and moving the
run to the `waiting` state; otherwise terminate, with the final response
taken from `final_message` when non-empty, else from the response text with
the `end_session` block removed, else from the whole response. The returned
triple mirrors `(final_response, should_continue, session_ended)`. -/
def handle_end_session (st : OrchState) (es : ToolCall) (response : String) :
    OrchState × String × Bool × Bool :=
  if st.tm.processed < st.tm.launched then
    let outstanding_count := st.tm.launched - st.tm.processed
    let pending_list :=
      if st.pendingIds ≠ [] then String.intercalate ", " st.pendingIds
      else "(" ++ toString outstanding_count ++ " task result(s) awaiting processing)"
    let st2 :=
      appendMsg st ⟨Role.system, end_session_warning_message outstanding_count pending_list⟩
    ({ st2 with runState := "waiting" }, response, false, false)
  else
    let text_before := extract_text_before_end_session response
    let fr0 := if text_before ≠ "" then text_before else response
    -- `_execute_tool(END_SESSION_TOOL, …)` records the invocation, moves the
    -- run state to `executing_tool` and returns the SESSION_END sentinel,
    -- which is only logged.
    let st2 := { st with runState := "executing_tool" }
    let fm := paramGet es.parameters "final_message" ""
    let fr := if fm ≠ "" then fm else fr0
    (st2, fr, false, true)

/-- `AgentOrchestrator._process_tool_calls`: parse-error notifications,
categorization, the assistant message, the synchronous phase, the
asynchronous phase, then end-session handling or the launch notification
and the continuation decision. -/
def process_tool_calls (execT : String → List (String × String) → String)
    (st : OrchState) (response : String) (tool_calls : List ToolCall) :
    OrchState × String × Bool × Bool :=
  let st1 := appendParseErrors st tool_calls
  let valid := tool_calls.filter (fun tc => tc.parse_error = none)
  let cat := categorize_tool_calls valid
  let st2 := appendMsg st1 ⟨Role.assistant, response⟩
  let st3 := execute_sync_calls execT st2 cat.2.1
  let la := launch_async_calls st3 cat.2.2
  match cat.1 with
  | some es => handle_end_session la.1 es response
  | none =>
    let st5 :=
      if la.2 ≠ [] then
        appendMsg la.1 ⟨Role.system, tasks_launched_notification_message la.2⟩
      else la.1
    let sc := should_continue_generating cat.2.1 cat.2.2
    let st6 := { st5 with runState := if sc then "generating" else "waiting" }
    (st6, response, sc, false)

/-- Runtime template `no_tool_call_warning`. -/
def no_tool_call_warning_message : String :=
  "SYSTEM REMINDER: You must call end_session to terminate.\n\n<tool_call>\n<tool_name>end_session</tool_name>\n<parameters>\n\x7b\"final_message\": \"Your response\"\x7d\n</parameters>\n</tool_call>\n"

/-- `AgentOrchestrator.handle_iteration`, from the point where the LLM
response content is available: extract the tool calls; when none were
produced append the end-session reminder and continue generating, otherwise
process the calls. -/
def handle_iteration (execT : String → List (String × String) → String)
    (st : OrchState) (response : String) : OrchState × String × Bool × Bool :=
  let st0 := { st with runState := "generating" }
  let tool_calls := extract_all_tool_calls response
  if tool_calls = [] then
    (appendMsg st0 ⟨Role.system, no_tool_call_warning_message⟩, response, true, false)
  else
    process_tool_calls execT st0 response tool_calls

end OrchestratorModel

section ScheduleModel

/-!
`AgentDatabase._calculate_next_run` and `mark_schedule_run`
(database.py lines 785-864). Timestamps are modelled as natural numbers in
minutes, so the `timedelta` units become the factors 1 / 60 / 7·24·60.
The Python while-loop `while next_run < now: next_run += delta` does not
terminate when `delta = 0` (the schema requires `interval ≥ 1`); the
embedding returns the anchor in that degenerate case and every theorem
assumes `0 < delta`.
-/

/-- The `timedelta` of a schedule in minutes, or `none` for an invalid
`schedule_type` (the source raises `ValueError`). -/
def scheduleDelta (schedule_type : String) (interval_value : Nat) : Option Nat :=
  if schedule_type = "minutes" then some interval_value
  else if schedule_type = "hours" then some (interval_value * 60)
  else if schedule_type = "weeks" then some (interval_value * 7 * 24 * 60)
  else none

/-- The anchor-advancing loop: `while next_run < now: next_run += delta`. -/
def advanceToNow (delta now anchor : Nat) : Nat :=
  if h : anchor < now ∧ 0 < delta then advanceToNow delta now (anchor + delta)
  else anchor
termination_by now - anchor
decreasing_by omega

/-- `AgentDatabase._calculate_next_run`. -/
def calculate_next_run (schedule_type : String) (interval_value : Nat)
    (start_from : Option Nat) (last_run_at : Option Nat) (created_at : Nat)
    (now : Nat) : Option Nat :=
  match scheduleDelta schedule_type interval_value with
  | none => none
  | some delta =>
    match last_run_at with
    | some last => some (last + delta)
    | none =>
      let anchor := start_from.getD created_at
      some (advanceToNow delta now anchor)

/-- The timing-relevant fields of a persisted schedule row. -/
structure Schedule where
  schedule_type : String
  interval_value : Nat
  start_from : Option Nat
  last_run_at : Option Nat
  next_run_at : Option Nat
  created_at : Nat
deriving DecidableEq, Repr

/-- `AgentDatabase.mark_schedule_run`: use the firing time `now` as the new
`last_run_at` and recompute `next_run_at` with it; `none` models the
`ValueError` escape on an invalid `schedule_type`. -/
def mark_schedule_run (sch : Schedule) (now : Nat) : Option Schedule :=
  match calculate_next_run sch.schedule_type sch.interval_value sch.start_from
      (some now) sch.created_at now with
  | none => none
  | some nxt => some { sch with last_run_at := some now, next_run_at := some nxt }

end ScheduleModel

section ExecutionTreeModel

/-!
`stop_agents_by_root` (web_interface/api/agents.py lines 304-355) and
`AgentDatabase.complete_agent_execution`. Only the database effect is
modelled (the cancellation of in-memory asyncio task handles is wall-clock
concurrency outside the embedding). Rows are the dictionaries returned by
`get_all_executions`.
-/

/-- An `agent_executions` row, restricted to the fields the subtree stop
reads and writes. -/
structure ExecRow where
  agent_id : String
  parent_agent_id : Option String
  completed_at : Option String
  current_state : String
deriving DecidableEq, Repr

/-- The children of `aid` in the executions list
(`[e for e in executions if e['parent_agent_id'] == agent_id]`). -/
def childrenOf (execs : List ExecRow) (aid : String) : List ExecRow :=
  execs.filter (fun e => e.parent_agent_id = some aid)

/-- `get_all_descendants`: the recursive descendant enumeration of
`stop_agents_by_root`, fueled by the recursion depth (the Python recursion
is unbounded; under the parent-before-child ordering of the rows a fuel of
`execs.length` suffices, as proved below). -/
def get_all_descendants (execs : List ExecRow) : Nat → String → Finset String
  | 0, aid => {aid}
  | fuel + 1, aid =>
    (childrenOf execs aid).foldl
      (fun acc c => acc ∪ get_all_descendants execs fuel c.agent_id) {aid}

/-- `AgentDatabase.complete_agent_execution` applied to a row: set
`completed_at` and `current_state = 'completed'`. -/
def completeRow (now : String) (e : ExecRow) : ExecRow :=
  { e with completed_at := some now, current_state := "completed" }

/-- The database effect of `stop_agents_by_root`: compute the execution
tree of `root_id` and mark completed every row of the tree whose
`completed_at` is still null. -/
def stop_tree_mark (execs : List ExecRow) (root_id : String) (now : String) :
    List ExecRow :=
  let tree := get_all_descendants execs execs.length root_id
  execs.map (fun e =>
    if e.agent_id ∈ tree ∧ e.completed_at = none then completeRow now e else e)

/-- The parent chain of `a` reaches `r` in exactly `n` steps, each step
following the `parent_agent_id` of the row carrying the current id. -/
inductive ReachesN (execs : List ExecRow) : Nat → String → String → Prop
  | refl (a : String) : ReachesN execs 0 a a
  | step {n : Nat} {a p r : String} (e : ExecRow) (he : e ∈ execs)
      (hid : e.agent_id = a) (hp : e.parent_agent_id = some p)
      (h : ReachesN execs n p r) : ReachesN execs (n + 1) a r

/-- The parent chain of `a` reaches `r` (including `a = r`). -/
def ParentReaches (execs : List ExecRow) (a r : String) : Prop :=
  ∃ n, ReachesN execs n a r

/-- Decidable parent-before-child check: every row's parent (when set) is
the id of an earlier row. This is the recording order invariant of the
execution store ("a child's parent must already have been recorded"). -/
def topoOK : List String → List ExecRow → Bool
  | _, [] => true
  | seen, e :: rest =>
    (match e.parent_agent_id with
     | none => true
     | some p => p ∈ seen) && topoOK (e.agent_id :: seen) rest

end ExecutionTreeModel

section CategorizeTheorems

theorem categorizeAux_eq (l : List ToolCall) :
    ∀ (es : Option ToolCall) (syncs asyncs : List ToolCall),
      categorizeAux l es syncs asyncs =
        ((l.reverse.find? (fun tc => tc.tool_name == END_SESSION_TOOL)).or es,
         syncs ++ l.filter
           (fun tc => tc.tool_name != END_SESSION_TOOL && tc.call_mode == "synchronous"),
         asyncs ++ l.filter
           (fun tc => tc.tool_name != END_SESSION_TOOL && tc.call_mode != "synchronous")) := by
  induction l with
  | nil => intro es syncs asyncs; simp [categorizeAux]
  | cons tc rest ih =>
    intro es syncs asyncs
    by_cases h1 : tc.tool_name = END_SESSION_TOOL
    · rw [categorizeAux, if_pos h1, ih]
      simp [List.find?_append, h1, List.filter_cons]
      cases List.find? (fun tc => tc.tool_name == END_SESSION_TOOL) rest.reverse <;>
        simp [Option.or]
    · by_cases h2 : tc.call_mode = "synchronous"
      · rw [categorizeAux, if_neg h1, if_pos h2, ih]
        simp [List.find?_append, h1, h2, List.filter_cons]
      · rw [categorizeAux, if_neg h1, if_neg h2, ih]
        simp [List.find?_append, h1, h2, List.filter_cons]

/-- C10: categorization routes every block named `end_session` to the
end-session slot regardless of its `call_mode` (the synchronous and
asynchronous lists contain exactly the other blocks, in order), and when a
turn has several `end_session` blocks only the textually last one is
retained, the earlier ones appearing nowhere in the output. -/
theorem categorize_end_session_last_wins (tool_calls : List ToolCall) :
    (categorize_tool_calls tool_calls).1 =
        tool_calls.reverse.find? (fun tc => tc.tool_name == END_SESSION_TOOL) ∧
      (categorize_tool_calls tool_calls).2.1 =
        tool_calls.filter
          (fun tc => tc.tool_name != END_SESSION_TOOL && tc.call_mode == "synchronous") ∧
      (categorize_tool_calls tool_calls).2.2 =
        tool_calls.filter
          (fun tc => tc.tool_name != END_SESSION_TOOL && tc.call_mode != "synchronous") := by
  unfold categorize_tool_calls
  rw [categorizeAux_eq]
  simp

end CategorizeTheorems

section EndSessionTheorems

/-- The pending-task list rendered by `_handle_end_session` when rejecting. -/
def pendingListStr (st : OrchState) : String :=
  if st.pendingIds ≠ [] then String.intercalate ", " st.pendingIds
  else "(" ++ toString (st.tm.launched - st.tm.processed)
    ++ " task result(s) awaiting processing)"

/-- C1: an `end_session` block terminates the session iff the outstanding
count (`launched - processed`) is zero at that moment; with outstanding
work the orchestrator appends exactly one system warning naming the
outstanding tasks, does not terminate, signals no continuation, and moves
the run to the `waiting` state. -/
theorem end_session_requires_no_outstanding (st : OrchState) (es : ToolCall)
    (response : String) :
    ((handle_end_session st es response).2.2.2 = true ↔ st.tm.outstanding = 0) ∧
      (0 < st.tm.outstanding →
        (handle_end_session st es response).1.conversation =
            st.conversation ++ [⟨Role.system,
              end_session_warning_message st.tm.outstanding (pendingListStr st)⟩] ∧
          (handle_end_session st es response).1.runState = "waiting" ∧
          (handle_end_session st es response).2.2.1 = false ∧
          (handle_end_session st es response).2.2.2 = false) := by
  constructor
  · unfold handle_end_session
    by_cases h : st.tm.processed < st.tm.launched
    · rw [if_pos h]
      simp [TMState.outstanding]
      omega
    · rw [if_neg h]
      simp [TMState.outstanding]
      omega
  · intro hout
    have h : st.tm.processed < st.tm.launched := by
      simp only [TMState.outstanding] at hout; omega
    unfold handle_end_session
    rw [if_pos h]
    simp [appendMsg, pendingListStr, TMState.outstanding]

/-- Witness for C1: a state with one outstanding task (`slow_1` launched,
nothing processed) rejects the `end_session`, appends the warning, and
stays waiting. -/
theorem end_session_requires_no_outstanding_witness :
    (handle_end_session
        ⟨[], [], ⟨1, 0, 0, 1⟩, ["slow_1"], 2, "generating"⟩
        ⟨"end_session", "synchronous", [], none⟩ "done").2.2.2 = false ∧
      (handle_end_session
        ⟨[], [], ⟨1, 0, 0, 1⟩, ["slow_1"], 2, "generating"⟩
        ⟨"end_session", "synchronous", [], none⟩ "done").1.runState = "waiting" :=
  let st : OrchState := ⟨[], [], ⟨1, 0, 0, 1⟩, ["slow_1"], 2, "generating"⟩
  let es : ToolCall := ⟨"end_session", "synchronous", [], none⟩
  let h := (end_session_requires_no_outstanding st es "done").2 (by decide)
  ⟨h.2.2.2, h.2.1⟩

end EndSessionTheorems

section TurnOrderingTheorems

/-- The user messages produced by the parse-error pass, one per malformed
block, in block order. -/
def parseErrMsgs (l : List ToolCall) : List Message :=
  l.filterMap (fun tc =>
    tc.parse_error.map (fun e => Message.mk Role.user (parse_error_message tc.tool_name e)))

/-- The valid (parse-error-free) blocks of a turn, in order. -/
def validCalls (l : List ToolCall) : List ToolCall :=
  l.filter (fun tc => tc.parse_error = none)

/-- The valid synchronous non-`end_session` blocks of a turn, in order. -/
def validSyncCalls (l : List ToolCall) : List ToolCall :=
  (validCalls l).filter
    (fun tc => tc.tool_name != END_SESSION_TOOL && tc.call_mode == "synchronous")

/-- The valid asynchronous non-`end_session` blocks of a turn, in order. -/
def validAsyncCalls (l : List ToolCall) : List ToolCall :=
  (validCalls l).filter
    (fun tc => tc.tool_name != END_SESSION_TOOL && tc.call_mode != "synchronous")

/-- The conversation messages appended by the synchronous phase. -/
def syncMsgs (execT : String → List (String × String) → String)
    (syncs : List ToolCall) : List Message :=
  syncs.map (fun tc =>
    Message.mk Role.user (tool_result_message tc.tool_name (execT tc.tool_name tc.parameters)))

theorem appendParseErrors_eq (l : List ToolCall) : ∀ st : OrchState,
    appendParseErrors st l =
      { st with conversation := st.conversation ++ parseErrMsgs l,
                trace := st.trace ++ (parseErrMsgs l).map TurnEvent.append } := by
  induction l with
  | nil => intro st; simp [appendParseErrors, parseErrMsgs]
  | cons tc rest ih =>
    intro st
    cases hpe : tc.parse_error with
    | none => simp [appendParseErrors, hpe, ih, parseErrMsgs]
    | some e => simp [appendParseErrors, hpe, ih, parseErrMsgs, appendMsg]

theorem execute_sync_calls_eq (execT : String → List (String × String) → String)
    (l : List ToolCall) : ∀ st : OrchState,
    execute_sync_calls execT st l =
      { st with conversation := st.conversation ++ syncMsgs execT l,
                trace := st.trace ++
                  (l.map (fun tc =>
                    [TurnEvent.dispatch tc.tool_name tc.parameters,
                     TurnEvent.append ⟨Role.user,
                       tool_result_message tc.tool_name
                         (execT tc.tool_name tc.parameters)⟩])).flatten } := by
  induction l with
  | nil => intro st; simp [execute_sync_calls, syncMsgs]
  | cons tc rest ih =>
    intro st
    rw [execute_sync_calls, ih]
    simp [syncMsgs, appendMsg, dispatchTool]

/-- The task ids allocated by the asynchronous phase from counter `n`. -/
def launchIds (n : Nat) : List ToolCall → List String
  | [] => []
  | tc :: rest => generate_task_id tc.tool_name n :: launchIds (n + 1) rest

/-- The launch events recorded by the asynchronous phase from counter `n`. -/
def launchEvts (n : Nat) : List ToolCall → List TurnEvent
  | [] => []
  | tc :: rest =>
    TurnEvent.launch (generate_task_id tc.tool_name n) tc.tool_name tc.parameters
      :: launchEvts (n + 1) rest

theorem launch_async_calls_eq (l : List ToolCall) : ∀ st : OrchState,
    launch_async_calls st l =
      ({ st with
          trace := st.trace ++ launchEvts st.taskCounter l,
          tm := { st.tm with launched := st.tm.launched + l.length,
                             running := st.tm.running + l.length },
          pendingIds := st.pendingIds ++ launchIds st.taskCounter l,
          taskCounter := st.taskCounter + l.length },
        launchIds st.taskCounter l) := by
  induction l with
  | nil => intro st; simp [launch_async_calls, launchEvts, launchIds]
  | cons tc rest ih =>
    intro st
    rw [launch_async_calls, ih]
    simp [launchEvts, launchIds]
    and_intros <;> omega

end TurnOrderingTheorems

section TurnDecomposition

theorem categorize_valid_eq (tool_calls : List ToolCall) :
    categorize_tool_calls (tool_calls.filter fun tc => tc.parse_error = none) =
      ((validCalls tool_calls).reverse.find? (fun tc => tc.tool_name == END_SESSION_TOOL),
       validSyncCalls tool_calls, validAsyncCalls tool_calls) := by
  rw [categorize_tool_calls, categorizeAux_eq]
  simp [validSyncCalls, validAsyncCalls, validCalls]

/-- The messages `_handle_end_session` appends, as a function of the
counter state and pending ids: the rejection warning, or nothing. -/
def endSessionMsgs (tm : TMState) (pendingIds : List String) : List Message :=
  if tm.processed < tm.launched then
    [⟨Role.system, end_session_warning_message (tm.launched - tm.processed)
      (if pendingIds ≠ [] then String.intercalate ", " pendingIds
       else "(" ++ toString (tm.launched - tm.processed)
         ++ " task result(s) awaiting processing)")⟩]
  else []

theorem handle_end_session_conversation (st : OrchState) (es : ToolCall) (r : String) :
    (handle_end_session st es r).1.conversation =
      st.conversation ++ endSessionMsgs st.tm st.pendingIds := by
  unfold handle_end_session endSessionMsgs
  split
  · simp [appendMsg]
  · simp

theorem handle_end_session_trace (st : OrchState) (es : ToolCall) (r : String) :
    (handle_end_session st es r).1.trace =
      st.trace ++ (endSessionMsgs st.tm st.pendingIds).map TurnEvent.append := by
  unfold handle_end_session endSessionMsgs
  split
  · simp [appendMsg]
  · simp

theorem handle_end_session_tm (st : OrchState) (es : ToolCall) (r : String) :
    (handle_end_session st es r).1.tm = st.tm := by
  unfold handle_end_session
  split
  · simp [appendMsg]
  · simp

theorem launchEvts_mem (l : List ToolCall) : ∀ (n : Nat) (ev : TurnEvent),
    ev ∈ launchEvts n l → ∃ tid tn p, ev = TurnEvent.launch tid tn p := by
  induction l with
  | nil => intro n ev h; simp [launchEvts] at h
  | cons tc rest ih =>
    intro n ev h
    simp only [launchEvts, List.mem_cons] at h
    rcases h with h | h
    · exact ⟨_, _, _, h⟩
    · exact ih _ _ h

theorem process_tool_calls_decomposition
    (execT : String → List (String × String) → String) (st : OrchState)
    (response : String) (tool_calls : List ToolCall) :
    ∃ tailMsgs tailEvts,
      (process_tool_calls execT st response tool_calls).1.conversation =
        st.conversation ++ parseErrMsgs tool_calls
          ++ [⟨Role.assistant, response⟩]
          ++ syncMsgs execT (validSyncCalls tool_calls) ++ tailMsgs ∧
      (process_tool_calls execT st response tool_calls).1.trace =
        st.trace ++ (parseErrMsgs tool_calls).map TurnEvent.append
          ++ [TurnEvent.append ⟨Role.assistant, response⟩]
          ++ ((validSyncCalls tool_calls).map (fun tc =>
                [TurnEvent.dispatch tc.tool_name tc.parameters,
                 TurnEvent.append ⟨Role.user, tool_result_message tc.tool_name
                   (execT tc.tool_name tc.parameters)⟩])).flatten
          ++ tailEvts ∧
      (process_tool_calls execT st response tool_calls).1.tm.launched =
        st.tm.launched + (validAsyncCalls tool_calls).length ∧
      (∀ ev ∈ tailEvts, ∀ nm p, ev ≠ TurnEvent.dispatch nm p) := by
  simp only [process_tool_calls, categorize_valid_eq]
  cases hfind : (validCalls tool_calls).reverse.find?
      (fun tc => tc.tool_name == END_SESSION_TOOL) with
  | none =>
    simp only [appendParseErrors_eq, execute_sync_calls_eq, launch_async_calls_eq,
      appendMsg]
    split
    · refine ⟨[⟨Role.system, tasks_launched_notification_message
          (launchIds st.taskCounter (validAsyncCalls tool_calls))⟩],
        launchEvts st.taskCounter (validAsyncCalls tool_calls)
          ++ [TurnEvent.append ⟨Role.system, tasks_launched_notification_message
                (launchIds st.taskCounter (validAsyncCalls tool_calls))⟩],
        ?_, ?_, ?_, ?_⟩
      · simp [List.append_assoc]
      · simp [List.append_assoc]
      · simp
      · intro ev hev nm p
        rcases List.mem_append.mp hev with h | h
        · rcases launchEvts_mem _ _ _ h with ⟨tid, tn, pp, rfl⟩; simp
        · simp only [List.mem_singleton] at h; subst h; simp
    · refine ⟨[], launchEvts st.taskCounter (validAsyncCalls tool_calls),
        ?_, ?_, ?_, ?_⟩
      · simp [List.append_assoc]
      · simp [List.append_assoc]
      · simp
      · intro ev hev nm p
        rcases launchEvts_mem _ _ _ hev with ⟨tid, tn, pp, rfl⟩; simp
  | some es =>
    simp only [appendParseErrors_eq, execute_sync_calls_eq, launch_async_calls_eq,
      handle_end_session_conversation, handle_end_session_trace, handle_end_session_tm,
      appendMsg]
    refine ⟨endSessionMsgs
        { st.tm with launched := st.tm.launched + (validAsyncCalls tool_calls).length,
                     running := st.tm.running + (validAsyncCalls tool_calls).length }
        (st.pendingIds ++ launchIds st.taskCounter (validAsyncCalls tool_calls)),
      launchEvts st.taskCounter (validAsyncCalls tool_calls)
        ++ (endSessionMsgs
             { st.tm with launched := st.tm.launched + (validAsyncCalls tool_calls).length,
                          running := st.tm.running + (validAsyncCalls tool_calls).length }
             (st.pendingIds ++ launchIds st.taskCounter (validAsyncCalls tool_calls))).map
             TurnEvent.append,
      ?_, ?_, ?_, ?_⟩
    · simp [List.append_assoc]
    · simp [List.append_assoc]
    · simp
    · intro ev hev nm p
      rcases List.mem_append.mp hev with h | h
      · rcases launchEvts_mem _ _ _ h with ⟨tid, tn, pp, rfl⟩; simp
      · rcases List.mem_map.mp h with ⟨m, _, rfl⟩; simp

end TurnDecomposition

section OrderingClaims

theorem parseErrMsgs_role (l : List ToolCall) :
    ∀ m ∈ parseErrMsgs l, m.role = Role.user := by
  intro m hm
  rcases List.mem_filterMap.mp hm with ⟨tc, _, hf⟩
  cases hpe : tc.parse_error with
  | none => rw [hpe] at hf; simp at hf
  | some e => rw [hpe] at hf; simp at hf; rw [← hf]

/-- C3: within one assistant turn the assistant message is appended before
any tool result, and the synchronous calls execute in textual order, each
call's result appended as a user message before the next synchronous call
is dispatched: the turn trace is the parse-error user appends, then the
assistant append, then the dispatch/result pairs of the valid synchronous
calls in order, then a tail free of synchronous dispatches. -/
theorem assistant_before_results_sync_in_order
    (execT : String → List (String × String) → String) (st : OrchState)
    (response : String) (tool_calls : List ToolCall) :
    ∃ tailEvts,
      (process_tool_calls execT st response tool_calls).1.trace =
        st.trace ++ (parseErrMsgs tool_calls).map TurnEvent.append
          ++ [TurnEvent.append ⟨Role.assistant, response⟩]
          ++ ((validSyncCalls tool_calls).map (fun tc =>
                [TurnEvent.dispatch tc.tool_name tc.parameters,
                 TurnEvent.append ⟨Role.user, tool_result_message tc.tool_name
                   (execT tc.tool_name tc.parameters)⟩])).flatten
          ++ tailEvts ∧
      (∀ ev ∈ (parseErrMsgs tool_calls).map TurnEvent.append,
        ∃ m, ev = TurnEvent.append m ∧ m.role = Role.user) ∧
      (∀ ev ∈ tailEvts, ∀ nm p, ev ≠ TurnEvent.dispatch nm p) := by
  obtain ⟨tailMsgs, tailEvts, _, htr, _, hnd⟩ :=
    process_tool_calls_decomposition execT st response tool_calls
  refine ⟨tailEvts, htr, ?_, hnd⟩
  intro ev hev
  rcases List.mem_map.mp hev with ⟨m, hm, rfl⟩
  exact ⟨m, rfl, parseErrMsgs_role _ m hm⟩

theorem parseErrMsgs_eq_map_filter (l : List ToolCall) :
    parseErrMsgs l =
      (l.filter (fun tc => tc.parse_error != none)).map
        (fun tc => Message.mk Role.user
          (parse_error_message tc.tool_name (tc.parse_error.getD ""))) := by
  induction l with
  | nil => simp [parseErrMsgs]
  | cons tc rest ih =>
    cases hpe : tc.parse_error with
    | none => simp [parseErrMsgs, List.filterMap_cons, hpe, List.filter_cons]
              exact ih
    | some e => simp [parseErrMsgs, List.filterMap_cons, hpe, List.filter_cons]
                exact ih

/-- C4 (amended): in a turn holding malformed blocks alongside valid ones,
the orchestrator appends one user message per parse-error block (naming the
faulty tool and the diagnostic) and only for those blocks, then appends the
assistant message verbatim, and the valid blocks of the turn still execute
(synchronous results appended in order, asynchronous launches counted). -/
theorem malformed_blocks_diagnosed_only
    (execT : String → List (String × String) → String) (st : OrchState)
    (response : String) (tool_calls : List ToolCall) :
    ∃ tailMsgs,
      (process_tool_calls execT st response tool_calls).1.conversation =
        st.conversation
          ++ (tool_calls.filter (fun tc => tc.parse_error != none)).map
              (fun tc => Message.mk Role.user
                (parse_error_message tc.tool_name (tc.parse_error.getD "")))
          ++ [⟨Role.assistant, response⟩]
          ++ syncMsgs execT (validSyncCalls tool_calls) ++ tailMsgs ∧
      (process_tool_calls execT st response tool_calls).1.tm.launched =
        st.tm.launched + (validAsyncCalls tool_calls).length := by
  obtain ⟨tailMsgs, tailEvts, hconv, _, hl, _⟩ :=
    process_tool_calls_decomposition execT st response tool_calls
  exact ⟨tailMsgs, by rw [hconv, parseErrMsgs_eq_map_filter], hl⟩

/-- A fresh orchestrator state: empty conversation, fresh `TaskManager`. -/
def emptyOrch : OrchState := ⟨[], [], ⟨0, 0, 0, 0⟩, [], 1, "generating"⟩

/-- A turn with one malformed `calc` block followed by one valid `calc`
block. -/
def mixedCalls : List ToolCall :=
  [⟨"calc", "synchronous", [], some "Invalid JSON in parameters"⟩,
   ⟨"calc", "synchronous", [("a", "1")], none⟩]

/-- Counterexample for C4 as stated: on a turn with a malformed block and a
valid block, the first message appended is the parse-error user message,
not the assistant message — the orchestrator diagnoses parse errors before
appending the assistant message, while the claim requires the assistant
message first. -/
theorem parse_error_before_assistant_counterexample :
    (process_tool_calls (fun _ _ => "5") emptyOrch "resp" mixedCalls).1.conversation =
        [⟨Role.user, parse_error_message "calc" "Invalid JSON in parameters"⟩,
         ⟨Role.assistant, "resp"⟩,
         ⟨Role.user, tool_result_message "calc" "5"⟩] ∧
      ((process_tool_calls (fun _ _ => "5") emptyOrch "resp" mixedCalls).1.conversation.head? ≠
        some ⟨Role.assistant, "resp"⟩) := by
  constructor
  · rfl
  · decide

end OrderingClaims

section FinalResponseClaims

/-- C8 (amended): for an accepted `end_session` (outstanding = 0) the final
response is `final_message` when that parameter is non-empty; otherwise it
is the assistant response with the `end_session` blocks removed and
stripped — which keeps any text after the block — and when that removal
leaves the empty string, the entire assistant response is used. -/
theorem accepted_end_session_final_response (st : OrchState) (es : ToolCall)
    (response : String) (h : st.tm.launched ≤ st.tm.processed) :
    (handle_end_session st es response).2.2.2 = true ∧
      (paramGet es.parameters "final_message" "" ≠ "" →
        (handle_end_session st es response).2.1 =
          paramGet es.parameters "final_message" "") ∧
      (paramGet es.parameters "final_message" "" = "" →
        extract_text_before_end_session response ≠ "" →
        (handle_end_session st es response).2.1 =
          extract_text_before_end_session response) ∧
      (paramGet es.parameters "final_message" "" = "" →
        extract_text_before_end_session response = "" →
        (handle_end_session st es response).2.1 = response) := by
  have hlt : ¬st.tm.processed < st.tm.launched := by omega
  unfold handle_end_session
  rw [if_neg hlt]
  refine ⟨rfl, ?_, ?_, ?_⟩
  · intro hfm; simp [hfm]
  · intro hfm htb; simp [hfm, htb]
  · intro hfm htb; simp [hfm, htb]

/-- Witness for C8: a fresh run accepting `end_session` with
`final_message = "5"` returns `"5"` and terminates. -/
theorem accepted_end_session_final_response_witness :
    (handle_end_session emptyOrch
        ⟨"end_session", "synchronous", [("final_message", "5")], none⟩ "x").2.2.2 = true ∧
      (handle_end_session emptyOrch
        ⟨"end_session", "synchronous", [("final_message", "5")], none⟩ "x").2.1 = "5" := by
  have h := accepted_end_session_final_response emptyOrch
    ⟨"end_session", "synchronous", [("final_message", "5")], none⟩ "x" (by decide)
  exact ⟨h.1, by rw [h.2.1 (by decide)]; decide⟩

/-- An `end_session` call with no parameters. -/
def esPlain : ToolCall := ⟨"end_session", "synchronous", [], none⟩

/-- A response with text on both sides of the `end_session` block. -/
def respAroundBlock : String :=
  "PREFIX<tool_call><tool_name>end_session</tool_name><parameters>\x7b\x7d</parameters></tool_call>SUFFIX"

/-- A response consisting of the `end_session` block alone. -/
def respOnlyBlock : String :=
  "<tool_call><tool_name>end_session</tool_name><parameters>\x7b\x7d</parameters></tool_call>"

set_option maxRecDepth 8000 in
/-- Counterexample for C8 as stated: with an empty `final_message`, the
fallback is not the text preceding the `end_session` block — text after the
block is kept ("PREFIXSUFFIX", not "PREFIX"), and when nothing remains
after removing the block the whole response (not the empty preceding text)
is returned. -/
theorem end_session_fallback_counterexample :
    (handle_end_session emptyOrch esPlain respAroundBlock).2.1 = "PREFIXSUFFIX" ∧
      (handle_end_session emptyOrch esPlain respAroundBlock).2.1 ≠ "PREFIX" ∧
      (handle_end_session emptyOrch esPlain respOnlyBlock).2.1 = respOnlyBlock ∧
      (handle_end_session emptyOrch esPlain respOnlyBlock).2.1 ≠ "" := by
  refine ⟨?_, by decide, ?_, by decide⟩ <;> decide

end FinalResponseClaims

section LegacyParseClaim

/-- A legacy single-block response: `<tool_name>`/`<parameters>` tags with
valid JSON but no `<tool_call>` wrapper. -/
def legacyResponse : String :=
  "<tool_name>calculator</tool_name>\n<parameters>\n\x7b\"op\": \"add\"\x7d\n</parameters>"

set_option maxRecDepth 8000 in
/-- C5 (divergence): the extraction used by the iteration loop
(`extract_all_tool_calls`, whose pattern requires the `<tool_call>`
wrapper) finds nothing in a legacy single-block response, so
`handle_iteration` falls through to the no-tool-call branch and appends the
end-session reminder — although `Agent._extract_tool_call` (unused by the
loop, with the wrapper made optional precisely for such models) parses the
same response. -/
theorem legacy_block_parse_divergence :
    extract_all_tool_calls legacyResponse = [] ∧
      legacy_extract_tool_call legacyResponse =
        some ⟨"calculator", [("op", "add")]⟩ ∧
      (handle_iteration (fun _ _ => "") emptyOrch legacyResponse).1.conversation =
        [⟨Role.system, no_tool_call_warning_message⟩] ∧
      (handle_iteration (fun _ _ => "") emptyOrch legacyResponse).2.2.2 = false := by
  refine ⟨by decide, by decide, ?_, by decide⟩
  decide

end LegacyParseClaim

section ScheduleClaims

theorem advanceToNow_spec_aux (delta now : Nat) (hpos : 0 < delta) :
    ∀ (n anchor : Nat), now - anchor ≤ n →
      ∃ k, advanceToNow delta now anchor = anchor + k * delta ∧
        now ≤ anchor + k * delta ∧
        (k = 0 ∨ anchor + (k - 1) * delta < now) := by
  intro n
  induction n with
  | zero =>
    intro anchor hle
    have hc : ¬(anchor < now ∧ 0 < delta) := by omega
    rw [advanceToNow, dif_neg hc]
    exact ⟨0, by ring_nf, by simp; omega, Or.inl rfl⟩
  | succ n ih =>
    intro anchor hle
    by_cases hc : anchor < now
    · have hcond : anchor < now ∧ 0 < delta := ⟨hc, hpos⟩
      rw [advanceToNow, dif_pos hcond]
      obtain ⟨k, h1, h2, h3⟩ := ih (anchor + delta) (by omega)
      refine ⟨k + 1, ?_, ?_, ?_⟩
      · rw [h1]; ring
      · have e : anchor + delta + k * delta = anchor + (k + 1) * delta := by ring
        omega
      · right
        rcases h3 with rfl | hlt
        · simpa using hc
        · rcases k with _ | j
          · simp at hlt ⊢; omega
          · have hj : j + 1 - 1 = j := by omega
            rw [hj] at hlt
            have e : anchor + delta + j * delta = anchor + (j + 1) * delta := by ring
            rw [e] at hlt
            have e2 : j + 1 + 1 - 1 = j + 1 := by omega
            rw [e2]
            exact hlt
    · have hcond : ¬(anchor < now ∧ 0 < delta) := by omega
      rw [advanceToNow, dif_neg hcond]
      exact ⟨0, by ring_nf, by simp; omega, Or.inl rfl⟩

theorem advanceToNow_spec (delta now anchor : Nat) (hpos : 0 < delta) :
    ∃ k, advanceToNow delta now anchor = anchor + k * delta ∧
      now ≤ anchor + k * delta ∧
      (k = 0 ∨ anchor + (k - 1) * delta < now) :=
  advanceToNow_spec_aux delta now hpos (now - anchor) anchor le_rfl

/-- C6: with `lastRunAt` set, the next run is `lastRunAt + Δ`; otherwise
the anchor (`startFrom`, else `createdAt`) is advanced by Δ just until it
is ≥ `now` and that value is the next run; and `mark_schedule_run` stores
the firing time as `lastRunAt` so the new `nextRunAt` is that time + Δ. -/
theorem schedule_next_run_correct (schedule_type : String)
    (interval_value delta : Nat)
    (hd : scheduleDelta schedule_type interval_value = some delta)
    (hpos : 0 < delta) :
    (∀ last start created now,
        calculate_next_run schedule_type interval_value start (some last) created now =
          some (last + delta)) ∧
      (∀ (start : Option Nat) (created now : Nat),
        ∃ k, calculate_next_run schedule_type interval_value start none created now =
            some (start.getD created + k * delta) ∧
          now ≤ start.getD created + k * delta ∧
          (k = 0 ∨ start.getD created + (k - 1) * delta < now)) ∧
      (∀ sch : Schedule, sch.schedule_type = schedule_type →
        sch.interval_value = interval_value → ∀ now,
        ∃ sch2, mark_schedule_run sch now = some sch2 ∧
          sch2.last_run_at = some now ∧ sch2.next_run_at = some (now + delta)) := by
  refine ⟨?_, ?_, ?_⟩
  · intro last start created now
    simp [calculate_next_run, hd]
  · intro start created now
    obtain ⟨k, h1, h2, h3⟩ := advanceToNow_spec delta now (start.getD created) hpos
    exact ⟨k, by simp [calculate_next_run, hd, h1], h2, h3⟩
  · intro sch hst hiv now
    refine ⟨{ sch with last_run_at := some now, next_run_at := some (now + delta) },
      ?_, rfl, rfl⟩
    simp [mark_schedule_run, calculate_next_run, hst, hiv, hd]

/-- Witness for C6 (scenario S5): a 5-minute schedule fired at `t = 12`
gets `lastRunAt = 12` and `nextRunAt = 17`. -/
theorem schedule_next_run_correct_witness :
    scheduleDelta "minutes" 5 = some 5 ∧ 0 < 5 ∧
      (∃ sch2, mark_schedule_run ⟨"minutes", 5, none, none, some 0, 0⟩ 12 = some sch2 ∧
        sch2.last_run_at = some 12 ∧ sch2.next_run_at = some 17) :=
  ⟨rfl, by decide,
    (schedule_next_run_correct "minutes" 5 5 rfl (by decide)).2.2
      ⟨"minutes", 5, none, none, some 0, 0⟩ rfl rfl 12⟩

end ScheduleClaims

section SecurityClaims

/-- C7: a tool call whose name is neither whitelisted nor the built-in
`end_session` yields (without raising — `execute_tool` is total) the
`SECURITY ERROR` text of the `tool_not_authorized` template, and the
synchronous phase simply appends that text as an ordinary tool result, so
the run continues. -/
theorem unauthorized_tool_security_error (env : ToolEnv) (cfg : AgentCfg)
    (tool_name : String) (parameters : List (String × String))
    (h1 : tool_name ∉ cfg.tools) (h2 : tool_name ≠ END_SESSION_TOOL) :
    execute_tool env cfg tool_name parameters =
        tool_not_authorized_message tool_name cfg.name (authorizedToolsStr cfg.tools)
          (cfg.agent_dir ++ "/tools.txt") ∧
      "SECURITY ERROR".toList <+: (execute_tool env cfg tool_name parameters).toList ∧
      (∀ st : OrchState,
        execute_sync_calls (execute_tool env cfg) st
            [⟨tool_name, "synchronous", parameters, none⟩] =
          appendMsg (dispatchTool st tool_name parameters)
            ⟨Role.user, tool_result_message tool_name
              (execute_tool env cfg tool_name parameters)⟩) := by
  have hauth : tool_name ∉ built_in_tools ∧ tool_name ∉ cfg.tools := by
    constructor
    · simp [built_in_tools, h2]
    · exact h1
  have he : execute_tool env cfg tool_name parameters =
      tool_not_authorized_message tool_name cfg.name (authorizedToolsStr cfg.tools)
        (cfg.agent_dir ++ "/tools.txt") := by
    unfold execute_tool
    rw [if_pos hauth]
  refine ⟨he, ?_, ?_⟩
  · rw [he]
    unfold tool_not_authorized_message
    have hp : "SECURITY ERROR".toList <+: "SECURITY ERROR: Tool/agent ".toList := by decide
    have : ("SECURITY ERROR: Tool/agent " ++ quoted tool_name
        ++ " is not authorized for agent " ++ quoted cfg.name ++ ". Authorized tools: "
        ++ authorizedToolsStr cfg.tools ++ ". To use this tool, add it to the file: "
        ++ (cfg.agent_dir ++ "/tools.txt")).toList =
        "SECURITY ERROR: Tool/agent ".toList ++ (quoted tool_name
        ++ " is not authorized for agent " ++ quoted cfg.name ++ ". Authorized tools: "
        ++ authorizedToolsStr cfg.tools ++ ". To use this tool, add it to the file: "
        ++ (cfg.agent_dir ++ "/tools.txt")).toList := by
      simp [List.append_assoc]
    rw [this]
    exact hp.trans (List.prefix_append _ _)
  · intro st
    rfl

/-- A registry environment with nothing registered. -/
def emptyToolEnv : ToolEnv := ⟨fun _ => false, fun _ => false, fun _ _ => .ok "", fun _ _ => ""⟩

/-- An agent configuration whitelisting only `calc`. -/
def calcOnlyCfg : AgentCfg := ⟨"a", ["calc"], "user/default/agents/a"⟩

/-- Witness for C7 (scenario S6): agent `a` (allowed: `calc`) calling
`shell` gets the SECURITY ERROR text back as an ordinary result. -/
theorem unauthorized_tool_security_error_witness :
    execute_tool emptyToolEnv calcOnlyCfg "shell" [("cmd", "ls")] =
        tool_not_authorized_message "shell" "a" "calc" "user/default/agents/a/tools.txt" ∧
      "SECURITY ERROR".toList <+:
        (execute_tool emptyToolEnv calcOnlyCfg "shell" [("cmd", "ls")]).toList := by
  have h := unauthorized_tool_security_error emptyToolEnv calcOnlyCfg "shell"
    [("cmd", "ls")] (by decide) (by decide)
  exact ⟨by rw [h.1]; rfl, h.2.1⟩

end SecurityClaims

section ExecutionTreeTheorems

theorem mem_foldl_union (f : ExecRow → Finset String) (x : String) :
    ∀ (l : List ExecRow) (init : Finset String),
      (x ∈ l.foldl (fun acc c => acc ∪ f c) init) ↔ x ∈ init ∨ ∃ c ∈ l, x ∈ f c := by
  intro l
  induction l with
  | nil => intro init; simp
  | cons b rest ih =>
    intro init
    simp only [List.foldl_cons, ih, Finset.mem_union, List.mem_cons]
    constructor
    · rintro (⟨h | h⟩ | ⟨c, hc, hx⟩)
      · exact Or.inl h
      · exact Or.inr ⟨b, Or.inl rfl, h⟩
      · exact Or.inr ⟨c, Or.inr hc, hx⟩
    · rintro (h | ⟨c, (rfl | hc), hx⟩)
      · exact Or.inl (Or.inl h)
      · exact Or.inl (Or.inr hx)
      · exact Or.inr ⟨c, hc, hx⟩

theorem self_mem_desc (execs : List ExecRow) :
    ∀ (fuel : Nat) (aid : String), aid ∈ get_all_descendants execs fuel aid := by
  intro fuel aid
  cases fuel with
  | zero => simp [get_all_descendants]
  | succ n =>
    rw [get_all_descendants, mem_foldl_union]
    left; simp

theorem reachesN_snoc {execs : List ExecRow} {r : String} :
    ∀ {n : Nat} {x b : String}, ReachesN execs n x b → ∀ e : ExecRow, e ∈ execs →
      e.agent_id = b → e.parent_agent_id = some r → ReachesN execs (n + 1) x r := by
  intro n x b h
  induction h with
  | refl a => intro e he hid hp; exact ReachesN.step e he hid hp (ReachesN.refl r)
  | step e' he' hid' hp' _ ih =>
    intro e he hid hp
    exact ReachesN.step e' he' hid' hp' (ih e he hid hp)

theorem desc_sound (execs : List ExecRow) :
    ∀ (fuel : Nat) (aid x : String), x ∈ get_all_descendants execs fuel aid →
      ParentReaches execs x aid := by
  intro fuel
  induction fuel with
  | zero =>
    intro aid x hx
    simp [get_all_descendants] at hx
    subst hx
    exact ⟨0, ReachesN.refl _⟩
  | succ n ih =>
    intro aid x hx
    rw [get_all_descendants, mem_foldl_union] at hx
    rcases hx with hx | ⟨c, hc, hx⟩
    · simp at hx; subst hx; exact ⟨0, ReachesN.refl _⟩
    · obtain ⟨m, hm⟩ := ih c.agent_id x hx
      simp only [childrenOf, List.mem_filter, decide_eq_true_eq] at hc
      exact ⟨m + 1, reachesN_snoc hm c hc.1 rfl hc.2⟩

theorem desc_mono (execs : List ExecRow) :
    ∀ (fuel fuel' : Nat), fuel ≤ fuel' → ∀ (aid x : String),
      x ∈ get_all_descendants execs fuel aid →
      x ∈ get_all_descendants execs fuel' aid := by
  intro fuel
  induction fuel with
  | zero =>
    intro fuel' _ aid x hx
    simp [get_all_descendants] at hx
    subst hx
    exact self_mem_desc execs fuel' _
  | succ n ih =>
    intro fuel' hle aid x hx
    rcases Nat.exists_eq_add_of_le hle with ⟨d, rfl⟩
    cases d with
    | zero => simpa using hx
    | succ d =>
      rw [get_all_descendants, mem_foldl_union] at hx
      rw [show n + 1 + (d + 1) = (n + (d + 1)) + 1 by omega,
        get_all_descendants, mem_foldl_union]
      rcases hx with hx | ⟨c, hc, hx⟩
      · exact Or.inl hx
      · exact Or.inr ⟨c, hc, ih (n + (d + 1)) (by omega) c.agent_id x hx⟩

theorem desc_child_step (execs : List ExecRow) :
    ∀ (m : Nat) (aid p : String), p ∈ get_all_descendants execs m aid →
      ∀ e : ExecRow, e ∈ execs → e.parent_agent_id = some p →
      e.agent_id ∈ get_all_descendants execs (m + 1) aid := by
  intro m
  induction m with
  | zero =>
    intro aid p hp e he hpar
    simp [get_all_descendants] at hp
    subst hp
    rw [get_all_descendants, mem_foldl_union]
    right
    refine ⟨e, ?_, self_mem_desc execs 0 e.agent_id⟩
    simp [childrenOf, List.mem_filter, he, hpar]
  | succ n ih =>
    intro aid p hp e he hpar
    rw [get_all_descendants, mem_foldl_union] at hp
    rcases hp with hp | ⟨c, hc, hp⟩
    · simp at hp
      subst hp
      rw [get_all_descendants, mem_foldl_union]
      right
      refine ⟨e, ?_, self_mem_desc execs (n + 1) e.agent_id⟩
      simp [childrenOf, List.mem_filter, he, hpar]
    · rw [get_all_descendants, mem_foldl_union]
      right
      exact ⟨c, hc, ih c.agent_id p hp e he hpar⟩

theorem reachesN_desc (execs : List ExecRow) :
    ∀ {n : Nat} {x r : String}, ReachesN execs n x r →
      x ∈ get_all_descendants execs n r := by
  intro n x r h
  induction h with
  | refl a => exact self_mem_desc execs 0 a
  | step e he hid hp _ ih =>
    subst hid
    exact desc_child_step execs _ _ _ ih e he hp

theorem topoOK_parent_earlier :
    ∀ (execs : List ExecRow) (seen : List String), topoOK seen execs = true →
      ∀ (i : Nat) (hi : i < execs.length) (p : String),
        (execs.get ⟨i, hi⟩).parent_agent_id = some p →
        p ∈ seen ∨ ∃ j, ∃ hj : j < execs.length,
          j < i ∧ (execs.get ⟨j, hj⟩).agent_id = p := by
  intro execs
  induction execs with
  | nil => intro seen _ i hi; simp at hi
  | cons e rest ih =>
    intro seen htopo i hi p hp
    rw [topoOK, Bool.and_eq_true] at htopo
    cases i with
    | zero =>
      simp only [List.get] at hp
      rw [hp] at htopo
      left
      simpa using htopo.1
    | succ i' =>
      have hi' : i' < rest.length := by simpa using hi
      have := ih (e.agent_id :: seen) htopo.2 i' hi' p (by simpa using hp)
      rcases this with hseen | ⟨j, hj, hlt, hid⟩
      · rcases List.mem_cons.mp hseen with heq | hseen'
        · right
          exact ⟨0, by simp, by omega, heq.symm⟩
        · left; exact hseen'
      · right
        exact ⟨j + 1, by simpa using Nat.succ_lt_succ hj, by omega, by simpa using hid⟩

theorem reachesN_le_index (execs : List ExecRow)
    (hnd : (execs.map ExecRow.agent_id).Nodup)
    (htopo : topoOK [] execs = true) :
    ∀ (n : Nat), ∀ (x r : String), ReachesN execs (n + 1) x r →
      ∀ (i : Nat) (hi : i < execs.length), (execs.get ⟨i, hi⟩).agent_id = x →
        n ≤ i := by
  intro n
  induction n with
  | zero => intro x r _ i _ _; omega
  | succ n ih =>
    intro x r h i hi hidx
    cases h with
    | step e he hid hp h' =>
      rename_i p
      -- the step row `e` is the row at index `i`: agent ids are unique
      obtain ⟨⟨je, hje⟩, hge⟩ := List.mem_iff_get.mp he
      have hge' : execs[je] = e := by simpa [List.get_eq_getElem] using hge
      have hidx' : (execs[i]).agent_id = x := by
        simpa [List.get_eq_getElem] using hidx
      have hji : je = i := by
        have hje' : je < (execs.map ExecRow.agent_id).length := by simpa using hje
        have hi' : i < (execs.map ExecRow.agent_id).length := by simpa using hi
        have h1 : (execs.map ExecRow.agent_id)[je] =
            (execs.map ExecRow.agent_id)[i] := by
          simp only [List.getElem_map]
          rw [hge', hid, hidx']
        exact (List.Nodup.getElem_inj_iff hnd).mp h1
      subst hji
      rw [← hge'] at hp
      rcases topoOK_parent_earlier execs [] htopo je hje p
          (by simpa [List.get_eq_getElem] using hp) with hmem | ⟨j, hj, hlt, hidj⟩
      · simp at hmem
      · have := ih p r h' j hj hidj
        omega

theorem reachesN_le_length (execs : List ExecRow)
    (hnd : (execs.map ExecRow.agent_id).Nodup)
    (htopo : topoOK [] execs = true) :
    ∀ (n : Nat) (x r : String), ReachesN execs n x r → n ≤ execs.length := by
  intro n x r h
  cases h with
  | refl a => exact Nat.zero_le _
  | step e he hid hp h' =>
    rename_i m p
    obtain ⟨⟨j, hj⟩, hge⟩ := List.mem_iff_get.mp he
    have : m ≤ j :=
      reachesN_le_index execs hnd htopo m x r
        (ReachesN.step e he hid hp h') j hj (by rw [hge, hid])
    omega

theorem mem_desc_iff (execs : List ExecRow)
    (hnd : (execs.map ExecRow.agent_id).Nodup)
    (htopo : topoOK [] execs = true) (r x : String) :
    x ∈ get_all_descendants execs execs.length r ↔ ParentReaches execs x r := by
  constructor
  · exact desc_sound execs execs.length r x
  · rintro ⟨n, h⟩
    exact desc_mono execs n execs.length
      (reachesN_le_length execs hnd htopo n x r h) r x (reachesN_desc execs h)

/-- C9: provided row ids are unique and every child row appears after its
parent (the recording order of the store), the subtree stop marks completed
exactly the not-yet-completed rows whose `parent_agent_id` chain reaches
the root (the root itself included), and leaves every other row unchanged. -/
theorem stop_tree_marks_exactly_subtree (execs : List ExecRow) (root now : String)
    (hnd : (execs.map ExecRow.agent_id).Nodup) (htopo : topoOK [] execs = true) :
    ∀ (i : Nat), ∀ e : ExecRow, execs[i]? = some e →
      ((ParentReaches execs e.agent_id root ∧ e.completed_at = none →
          (stop_tree_mark execs root now)[i]? = some (completeRow now e)) ∧
        (¬(ParentReaches execs e.agent_id root ∧ e.completed_at = none) →
          (stop_tree_mark execs root now)[i]? = some e)) := by
  intro i e he
  unfold stop_tree_mark
  simp only [List.getElem?_map, he, Option.map_some']
  constructor
  · rintro ⟨hr, hc⟩
    have hmem : e.agent_id ∈ get_all_descendants execs execs.length root :=
      (mem_desc_iff execs hnd htopo root e.agent_id).mpr hr
    rw [if_pos ⟨hmem, hc⟩]
  · intro hn
    have hcond : ¬(e.agent_id ∈ get_all_descendants execs execs.length root ∧
        e.completed_at = none) := by
      rintro ⟨hm, hc⟩
      exact hn ⟨(mem_desc_iff execs hnd htopo root e.agent_id).mp hm, hc⟩
    rw [if_neg hcond]

/-- A three-row store: root `r`, child `c1` of `r`, unrelated root `z`. -/
def treeRows : List ExecRow :=
  [⟨"r", none, none, "generating"⟩,
   ⟨"c1", some "r", none, "generating"⟩,
   ⟨"z", none, none, "generating"⟩]

/-- Witness for C9: stopping the tree of `r` completes the child `c1` and
leaves the unrelated root `z` untouched. -/
theorem stop_tree_marks_exactly_subtree_witness :
    (stop_tree_mark treeRows "r" "T1")[1]? =
        some (completeRow "T1" ⟨"c1", some "r", none, "generating"⟩) ∧
      (stop_tree_mark treeRows "r" "T1")[2]? =
        some ⟨"z", none, none, "generating"⟩ := by
  have h1 := (stop_tree_marks_exactly_subtree treeRows "r" "T1" (by decide) (by decide) 1
      ⟨"c1", some "r", none, "generating"⟩ rfl).1
  have h2 := (stop_tree_marks_exactly_subtree treeRows "r" "T1" (by decide) (by decide) 2
      ⟨"z", none, none, "generating"⟩ rfl).2
  refine ⟨h1 ⟨⟨1, ReachesN.step ⟨"c1", some "r", none, "generating"⟩
      (by simp [treeRows]) rfl rfl (ReachesN.refl "r")⟩, rfl⟩, h2 ?_⟩
  rintro ⟨hr, -⟩
  have hz : "z" ∈ get_all_descendants treeRows treeRows.length "r" :=
    (mem_desc_iff treeRows (by decide) (by decide) "r" "z").mpr hr
  exact absurd hz (by decide)

end ExecutionTreeTheorems
